import Mathlib

/-!
Verification of the rule-driven Drive classifier (`drive_apps_script.js`,
function `organizeDrive` / `getOrCreateFolder`) and of the cost-monitoring
widget (`cost_widget.js`, function `fetchCostData`), as shallow embeddings.

JavaScript strings are modelled by Lean `String`; the JS string primitives
the source uses (`split('.')` + `pop()`, `indexOf(sub) >= 0`, `toLowerCase`)
are modelled by explicit recursions on the character list.
-/

namespace DriveOrganizer

/-- Model of JS `String.prototype.split(sep)` on character lists.
`jsSplit sep s` never returns the empty list (matching JS, whose `split`
always yields at least one element). -/
def jsSplit (sep : Char) : List Char → List (List Char)
  | [] => [[]]
  | c :: cs =>
    match jsSplit sep cs with
    | r :: rs => if c = sep then [] :: r :: rs else (c :: r) :: rs
    | [] => [[]]

/-- Model of JS `s.indexOf(pat) >= 0` (substring containment) on lists. -/
def hasSub (pat : List Char) : List Char → Bool
  | [] => pat.isEmpty
  | c :: cs => pat.isPrefixOf (c :: cs) || hasSub pat cs

/-- Model of `s.indexOf(pat) >= 0` for Lean strings. -/
def strContains (s pat : String) : Bool :=
  hasSub pat.data s.data

/-- Model of JS `toLowerCase` as a character-wise map (ASCII letters are
lowered; everything else, including Hangul, is unchanged). -/
def jsToLower (s : String) : String :=
  String.mk (s.data.map Char.toLower)

/-- Model of `fileName.split('.').pop()` where
`fileName = file.getName().toLowerCase()` (lines 70-71 of the source). -/
def extOf (name : String) : String :=
  String.mk ((jsSplit '.' (jsToLower name).data).getLastD [])

/-- A category record of the `categories` table (lines 14-56): the key,
the optional `keywords` array and the optional `extensions` array
(`none` models an absent field, which JS treats as falsy). -/
structure CategoryRule where
  id : String
  keywords : Option (List String)
  extensions : Option (List String)
deriving DecidableEq, Repr

/-- The catch-all entry `'99_기타': { keywords: [] }` of the source table. -/
def catchAll : CategoryRule :=
  ⟨"99_기타", some [], none⟩

def cat01 : CategoryRule :=
  ⟨"01_배포사이트_소스코드",
    some ["alpha", "engine", "yjtax", "tax master", "wonwill", "제안서",
      "founderone", "파운더원", "통합db", "db자동화", "naver-blog",
      "블로그마스터", "index.html", "alpha-v4"], none⟩

def cat02 : CategoryRule :=
  ⟨"02_쇼츠팩토리",
    some ["shorts", "factory", "쇼츠", "영상제작", "render", "tts",
      "subtitle", "server.py"], none⟩

def cat03 : CategoryRule :=
  ⟨"03_프랜차이즈_자료",
    some ["프랜차이즈", "franchise", "창업", "가맹", "본사", "상권",
      "컨설팅", "양도", "매각", "인테리어", "임대", "리스", "렌탈"], none⟩

def cat04 : CategoryRule :=
  ⟨"04_세무_회계",
    some ["세무", "세금", "tax", "부가세", "매입", "매출", "의제", "절세",
      "회계", "국세", "nts", "사업자", "부가가치"], none⟩

def cat05 : CategoryRule :=
  ⟨"05_마케팅_영업",
    some ["마케팅", "marketing", "영업", "블로그", "blog", "seo", "키워드",
      "광고", "sns", "홍보", "cta", "포스팅"], none⟩

def cat06 : CategoryRule :=
  ⟨"06_고객DB_CRM",
    some ["고객", "customer", "crm", "상담", "원윌", "wonwill", "db자동화",
      "통합db", "문자", "aligo", "sms"], none⟩

def cat07 : CategoryRule :=
  ⟨"07_API_설정",
    some ["api", "key", "token", "env", "config", "설정", "credential",
      "oauth", "gemini", "claude", "perplexity", "openclaw"], none⟩

def cat08 : CategoryRule :=
  ⟨"08_이미지_미디어", none,
    some ["png", "jpg", "jpeg", "gif", "svg", "mp4", "mp3", "wav", "webp",
      "ico", "bmp", "avi", "mov"]⟩

def cat09 : CategoryRule :=
  ⟨"09_문서_기획",
    some ["기획", "스펙", "spec", "plan", "readme", "handoff", "프로젝트",
      "명령어", "전달"],
    some ["md", "txt", "pdf", "docx", "xlsx", "pptx", "hwp"]⟩

/-- The `categories` table of the source, in declaration order (JS `for..in`
on this object literal enumerates the keys in insertion order). -/
def categories : List CategoryRule :=
  [cat01, cat02, cat03, cat04, cat05, cat06, cat07, cat08, cat09, catchAll]

/-- The extension loop (lines 76-82): scan the rules in order; on the first
rule whose `extensions` array contains `ext`, set `targetCat` and break. -/
def extLoop (ext : String) : List CategoryRule → String → String
  | [], targetCat => targetCat
  | r :: rs, targetCat =>
    match r.extensions with
    | some exts => if exts.contains ext then r.id else extLoop ext rs targetCat
    | none => extLoop ext rs targetCat

/-- The keyword loop (lines 86-96): rules with no `keywords` field are
skipped (`if (!cat.keywords) continue`); the first keyword whose lowercase
form occurs in the lowercase name sets `targetCat`, and the outer loop
breaks as soon as `targetCat` differs from the initial `'99_기타'`. -/
def kwLoop (fileName : String) : List CategoryRule → String → String
  | [], targetCat => targetCat
  | r :: rs, targetCat =>
    let t :=
      match r.keywords with
      | none => targetCat
      | some kws =>
        if kws.any (fun kw => strContains fileName (jsToLower kw)) then r.id
        else targetCat
    if t ≠ "99_기타" then t else kwLoop fileName rs t

/-- File classification (lines 68-97): `targetCat` starts at `'99_기타'`,
the extension pass runs first, and the keyword pass runs only when the
extension pass left `targetCat` at `'99_기타'`. -/
def classifyFile (rules : List CategoryRule) (name : String) : String :=
  let fileName := jsToLower name
  let ext := extOf name
  let targetCat := extLoop ext rules "99_기타"
  if targetCat = "99_기타" then kwLoop fileName rules targetCat else targetCat

/-- Folder classification (lines 118-131): keyword pass only. -/
def classifyFolder (rules : List CategoryRule) (name : String) : String :=
  kwLoop (jsToLower name) rules "99_기타"

/-- All pairs (name, assigned category) for a batch of item names. -/
def classifyAll (rules : List CategoryRule) (names : List String) :
    List (String × String) :=
  names.map (fun n => (n, classifyFile rules n))

/-- A Drive item; `id` models the underlying Drive object identity, `name`
its display name. -/
structure Item where
  id : Nat
  name : String
deriving DecidableEq, Repr

/-- State of the move phase: the remaining root listing, the contents of the
category folders (in move order, tagged by category id), and the counter
`movedCount` that the final summary reports. -/
structure MoveState where
  root : List Item
  dest : List (String × Item)
  movedCount : Nat
deriving DecidableEq, Repr

/-- The file-moving loop (lines 68-105): classify, `targetFolder.addFile`,
`root.removeFile`, `movedCount++`. -/
def moveLoop (rules : List CategoryRule) : List Item → MoveState → MoveState
  | [], st => st
  | f :: fs, st =>
    let targetCat := classifyFile rules f.name
    moveLoop rules fs
      ⟨st.root.filter (fun g => g.id != f.id),
        st.dest ++ [(targetCat, f)], st.movedCount + 1⟩

/-- The file-moving loop with the Drive move effect made explicit: the
source wraps no try/catch around `addFile`/`removeFile`, so a thrown move
error propagates out of the loop, modelled by `Except.error`. -/
def moveLoopE (mv : Item → Except String Unit) (rules : List CategoryRule) :
    List Item → MoveState → Except String MoveState
  | [], st => Except.ok st
  | f :: fs, st =>
    let targetCat := classifyFile rules f.name
    match mv f with
    | Except.error e => Except.error e
    | Except.ok _ =>
      moveLoopE mv rules fs
        ⟨st.root.filter (fun g => g.id != f.id),
          st.dest ++ [(targetCat, f)], st.movedCount + 1⟩

/-- The extension-loop guard of a single rule (line 78):
`cat.extensions && cat.extensions.indexOf(ext) >= 0`. -/
def extMatches (ext : String) (r : CategoryRule) : Bool :=
  match r.extensions with
  | some exts => exts.contains ext
  | none => false

/-- The first rule, in declaration order, whose extension set contains
`ext`. -/
def extFirst (rules : List CategoryRule) (ext : String) : Option CategoryRule :=
  rules.find? (extMatches ext)

/-- A concrete Drive move effect for concrete runs: moving the item with
id 0 throws, every other move succeeds. -/
def mvDeny : Item → Except String Unit :=
  fun it => if it.id = 0 then Except.error "move failed" else Except.ok ()

def mainFolderName : String := "YJ Partners - 프로젝트 관리"

/-- Model of `folderName.match(/^\d{2}_/)` being non-null. -/
def startsTwoDigitsUnderscore (s : String) : Bool :=
  match s.data with
  | c1 :: c2 :: c3 :: _ => c1.isDigit && c2.isDigit && c3 == '_'
  | _ => false

/-- The two `continue` guards of the folder loop (lines 115-116). -/
def skipFolder (name : String) : Bool :=
  name == mainFolderName || startsTwoDigitsUnderscore name

/-- The folder-moving loop (lines 110-138). -/
def folderLoop (rules : List CategoryRule) : List Item → MoveState → MoveState
  | [], st => st
  | f :: fs, st =>
    if skipFolder f.name then folderLoop rules fs st
    else
      let targetCat := classifyFolder rules f.name
      folderLoop rules fs
        ⟨st.root.filter (fun g => g.id != f.id),
          st.dest ++ [(targetCat, f)], st.movedCount + 1⟩

/-- `getOrCreateFolder` (lines 150-156) over an abstract folder store: the
list of names of the folders existing under the parent.  Returns the new
store and the resulting folder's name. -/
def getOrCreateFolder (existing : List String) (name : String) :
    List String × String :=
  if name ∈ existing then (existing, name) else (existing ++ [name], name)

/-- The setup loop of `organizeDrive` (lines 59-62): every category folder
is created (or fetched) before any file is examined. -/
def createCategoryFolders : List CategoryRule → List String → List String
  | [], existing => existing
  | r :: rs, existing => createCategoryFolders rs (getOrCreateFolder existing r.id).1

/-- The whole run of `organizeDrive`: category-folder setup, then the file
pass, then the folder pass. -/
def organizeDrive (rules : List CategoryRule) (existing : List String)
    (files folders : List Item) :
    List String × MoveState × MoveState :=
  let existing2 := createCategoryFolders rules existing
  -- the setup loop runs before either moving pass
  let stFiles := moveLoop rules files ⟨files, [], 0⟩
  let stFolders := folderLoop rules folders ⟨folders, [], 0⟩
  (existing2, stFiles, stFolders)

/-- The suffix of `s` after its last occurrence of `sep`; the whole list
when `sep` does not occur.  Spec-side characterisation of the extension
("substring after the last `.`"), used to compare with `extOf`. -/
def tailAfter (sep : Char) : List Char → List Char
  | [] => []
  | c :: cs =>
    if cs.contains sep then tailAfter sep cs
    else if c = sep then cs else c :: cs

end DriveOrganizer

namespace CostWidget

/-- A dollar/won pair as served by the summary endpoint. -/
structure Money where
  usd : ℚ
  krw : ℚ
deriving DecidableEq, Repr

/-- The `budget` object of the summary payload. -/
structure Budget where
  limit_krw : ℚ
  used_pct : ℚ
  status : String
deriving DecidableEq, Repr

/-- The payload of `GET {base}/api/cost/summary`. -/
structure Summary where
  today : Money
  monthly : Money
  alltime : Money
  budget : Budget
  exchange_rate : ℚ
deriving DecidableEq, Repr

/-- One row of the models payload. -/
structure ModelCost where
  model : String
  cost_usd : ℚ
  cost_krw : ℚ
deriving DecidableEq, Repr

/-- The payload of `GET {base}/api/cost/models`. -/
structure ModelsData where
  models : List ModelCost
deriving DecidableEq, Repr

/-- An HTTP response as `fetchCostData` sees it: its `ok` flag and the
result of `res.json()` (`none` models a body that fails to parse, which
throws in JS). -/
structure HttpResponse (α : Type) where
  ok : Bool
  body : Option α
deriving DecidableEq, Repr

/-- Outcome of one run of `fetchCostData`: either the success branch
renders from the two parsed payloads, or control reaches the catch block. -/
inductive FetchOutcome
  | success (s : Summary) (m : ModelsData)
  | failure
deriving DecidableEq, Repr

/-- Control flow of `fetchCostData` (lines 136-262 of `cost_widget.js`):
both responses are awaited, then `if (!summaryRes.ok) throw`, then
`summaryRes.json()`, then `modelsRes.json()`; any throw lands in the
catch block.  Note the source never reads `modelsRes.ok`. -/
def fetchCostData (summaryRes : HttpResponse Summary)
    (modelsRes : HttpResponse ModelsData) : FetchOutcome :=
  if !summaryRes.ok then FetchOutcome.failure
  else
    match summaryRes.body with
    | none => FetchOutcome.failure
    | some summary =>
      match modelsRes.body with
      | none => FetchOutcome.failure
      | some modelsData => FetchOutcome.success summary modelsData

/-- Budget-bar colour (lines 152-155): green by default, red when
`pct >= 100`, else amber when `pct >= 80`. -/
def barColor (pct : ℚ) : String :=
  if pct ≥ 100 then "#ef4444" else if pct ≥ 80 then "#f59e0b" else "#22c55e"

/-- Budget-bar fill width in percent: `Math.min(pct, 100)` (lines 187-190). -/
def fillWidth (pct : ℚ) : ℚ :=
  min pct 100

/-- What the widget body (`#yj-cost-body`, via `body.innerHTML = ...`)
holds: the initial loading text, a rendering built solely from the two
parsed payloads (success branch, lines 165-233), or the fixed diagnostic
built solely from `API_BASE` (catch block, lines 253-259). -/
inductive BodyContent
  | loading
  | rendered (s : Summary) (m : ModelsData)
  | errorMsg (apiBase : String)
deriving DecidableEq, Repr

/-- Effect of one `fetchCostData` run on the widget body: the success
branch overwrites it with the freshly rendered cards, the catch block
overwrites it with the error diagnostic.  The previous content `prev` is
never consulted. -/
def applyFetch (apiBase : String) (prev : BodyContent)
    (summaryRes : HttpResponse Summary) (modelsRes : HttpResponse ModelsData) :
    BodyContent :=
  match fetchCostData summaryRes modelsRes, prev with
  | FetchOutcome.success s m, _ => BodyContent.rendered s m
  | FetchOutcome.failure, _ => BodyContent.errorMsg apiBase

/-- A concrete summary payload used for concrete runs. -/
def sampleSummary : Summary :=
  ⟨⟨1, 1300⟩, ⟨10, 13000⟩, ⟨100, 130000⟩, ⟨50000, 26, "ok"⟩, 1300⟩

/-- A concrete models payload used for concrete runs. -/
def sampleModels : ModelsData :=
  ⟨[⟨"model-a", 1, 1300⟩]⟩

end CostWidget

namespace CostWidget

/-- Region analysis of `barColor`: exactly one of the three colours is
produced, matching the three percentage regions. -/
lemma barColor_regions (pct : ℚ) :
    (100 ≤ pct ∧ barColor pct = "#ef4444") ∨
    (80 ≤ pct ∧ pct < 100 ∧ barColor pct = "#f59e0b") ∨
    (pct < 80 ∧ barColor pct = "#22c55e") := by
  unfold barColor
  rcases le_or_lt 100 pct with h1 | h1
  · exact Or.inl ⟨h1, if_pos h1⟩
  · rcases le_or_lt 80 pct with h2 | h2
    · refine Or.inr (Or.inl ⟨h2, h1, ?_⟩)
      rw [if_neg (by exact not_le.mpr h1), if_pos h2]
    · refine Or.inr (Or.inr ⟨h2, ?_⟩)
      rw [if_neg (by exact not_le.mpr h1), if_neg (by exact not_le.mpr h2)]

/-- C8: for every fetched summary, the budget-bar fill width is
`min(used_pct, 100)`, the bar is green exactly when `used_pct < 80`, amber
exactly when `80 ≤ used_pct < 100`, red exactly when `used_pct ≥ 100`, and
in particular 79 renders green, 80 amber and 100 red. -/
theorem budget_bar_thresholds (s : Summary) :
    fillWidth s.budget.used_pct = min s.budget.used_pct 100 ∧
    (barColor s.budget.used_pct = "#22c55e" ↔ s.budget.used_pct < 80) ∧
    (barColor s.budget.used_pct = "#f59e0b" ↔
      80 ≤ s.budget.used_pct ∧ s.budget.used_pct < 100) ∧
    (barColor s.budget.used_pct = "#ef4444" ↔ 100 ≤ s.budget.used_pct) ∧
    barColor 79 = "#22c55e" ∧ barColor 80 = "#f59e0b" ∧
    barColor 100 = "#ef4444" := by
  have key := barColor_regions s.budget.used_pct
  refine ⟨rfl, ?_, ?_, ?_, ?_, ?_, ?_⟩
  · constructor
    · intro h
      rcases key with ⟨h1, hc⟩ | ⟨h1, h2, hc⟩ | ⟨h1, hc⟩
      · rw [hc] at h; exact absurd h (by decide)
      · rw [hc] at h; exact absurd h (by decide)
      · exact h1
    · intro h
      rcases key with ⟨h1, hc⟩ | ⟨h1, h2, hc⟩ | ⟨h1, hc⟩
      · linarith
      · linarith
      · exact hc
  · constructor
    · intro h
      rcases key with ⟨h1, hc⟩ | ⟨h1, h2, hc⟩ | ⟨h1, hc⟩
      · rw [hc] at h; exact absurd h (by decide)
      · exact ⟨h1, h2⟩
      · rw [hc] at h; exact absurd h (by decide)
    · intro h
      rcases key with ⟨h1, hc⟩ | ⟨h1, h2, hc⟩ | ⟨h1, hc⟩
      · linarith [h.2]
      · exact hc
      · linarith [h.1]
  · constructor
    · intro h
      rcases key with ⟨h1, hc⟩ | ⟨h1, h2, hc⟩ | ⟨h1, hc⟩
      · exact h1
      · rw [hc] at h; exact absurd h (by decide)
      · rw [hc] at h; exact absurd h (by decide)
    · intro h
      rcases key with ⟨h1, hc⟩ | ⟨h1, h2, hc⟩ | ⟨h1, hc⟩
      · exact hc
      · linarith
      · linarith
  · rcases barColor_regions 79 with ⟨h1, hc⟩ | ⟨h1, h2, hc⟩ | ⟨h1, hc⟩
    · norm_num at h1
    · norm_num at h1
    · exact hc
  · rcases barColor_regions 80 with ⟨h1, hc⟩ | ⟨h1, h2, hc⟩ | ⟨h1, hc⟩
    · norm_num at h1
    · exact hc
    · norm_num at h1
  · rcases barColor_regions 100 with ⟨h1, hc⟩ | ⟨h1, h2, hc⟩ | ⟨h1, hc⟩
    · exact hc
    · norm_num at h2
    · norm_num at h1

/-- C6 counterexample: a models response with a non-success HTTP status but
a JSON-parseable body does not make the refresh fail — `fetchCostData`
reaches the success branch, contradicting "a non-success status from either
response causes failure". -/
theorem models_status_not_checked :
    fetchCostData ⟨true, some sampleSummary⟩ ⟨false, some sampleModels⟩ =
      FetchOutcome.success sampleSummary sampleModels ∧
    FetchOutcome.success sampleSummary sampleModels ≠ FetchOutcome.failure :=
  ⟨rfl, fun h => FetchOutcome.noConfusion h⟩

/-- C6 amended: both endpoints are fetched, and the refresh fails exactly
when the summary response has a non-success status, the summary body fails
to parse, or the models body fails to parse; the models response's HTTP
status is never consulted. -/
theorem refresh_failure_conditions (sRes : HttpResponse Summary)
    (mRes : HttpResponse ModelsData) :
    (sRes.ok = false → fetchCostData sRes mRes = FetchOutcome.failure) ∧
    (sRes.body = none → fetchCostData sRes mRes = FetchOutcome.failure) ∧
    (mRes.body = none → fetchCostData sRes mRes = FetchOutcome.failure) ∧
    (∀ s m, sRes.ok = true → sRes.body = some s → mRes.body = some m →
      fetchCostData sRes mRes = FetchOutcome.success s m) := by
  obtain ⟨sok, sbody⟩ := sRes
  obtain ⟨mok, mbody⟩ := mRes
  refine ⟨?_, ?_, ?_, ?_⟩
  · intro h
    simp only at h
    subst h
    rfl
  · intro h
    simp only at h
    subst h
    cases sok <;> rfl
  · intro h
    simp only at h
    subst h
    cases sok <;> cases sbody <;> rfl
  · intro s m hok hs hm
    simp only at hok hs hm
    subst hok; subst hs; subst hm
    rfl

/-- Witness for `refresh_failure_conditions`: a non-success summary status
makes the concrete refresh fail. -/
theorem refresh_failure_conditions_witness :
    fetchCostData ⟨false, none⟩ ⟨true, none⟩ = FetchOutcome.failure :=
  (refresh_failure_conditions ⟨false, none⟩ ⟨true, none⟩).1 rfl

/-- C5 counterexample: a failed refresh while the panel shows previously
rendered values replaces the whole body with the error diagnostic; the
previously rendered numeric values are gone. -/
theorem error_overwrites_rendered_values :
    applyFetch "http://localhost:5050"
        (BodyContent.rendered sampleSummary sampleModels)
        ⟨false, none⟩ ⟨false, none⟩ =
      BodyContent.errorMsg "http://localhost:5050" ∧
    BodyContent.errorMsg "http://localhost:5050" ≠
      BodyContent.rendered sampleSummary sampleModels :=
  ⟨rfl, fun h => BodyContent.noConfusion h⟩

/-- C5 amended: whenever a refresh fails, the widget body is overwritten
with the fixed error diagnostic naming the endpoint, regardless of what was
previously rendered; the widget keeps no stored snapshot, so nothing of the
previous values survives the failure. -/
theorem failure_replaces_body (apiBase : String) (prev : BodyContent)
    (sRes : HttpResponse Summary) (mRes : HttpResponse ModelsData)
    (h : fetchCostData sRes mRes = FetchOutcome.failure) :
    applyFetch apiBase prev sRes mRes = BodyContent.errorMsg apiBase := by
  unfold applyFetch
  rw [h]

/-- Witness for `failure_replaces_body` at a concrete failed refresh over a
previously rendered body. -/
theorem failure_replaces_body_witness :
    applyFetch "http://localhost:5050"
        (BodyContent.rendered sampleSummary sampleModels)
        ⟨true, none⟩ ⟨true, some sampleModels⟩ =
      BodyContent.errorMsg "http://localhost:5050" :=
  failure_replaces_body "http://localhost:5050"
    (BodyContent.rendered sampleSummary sampleModels)
    ⟨true, none⟩ ⟨true, some sampleModels⟩ rfl

end CostWidget

namespace DriveOrganizer

lemma jsSplit_ne_nil (sep : Char) (l : List Char) : jsSplit sep l ≠ [] := by
  cases l with
  | nil => simp [jsSplit]
  | cons c cs =>
    simp only [jsSplit]
    cases jsSplit sep cs with
    | nil => simp
    | cons r rs =>
      by_cases h : c = sep <;> simp [h]

lemma jsSplit_of_not_contains (sep : Char) (l : List Char)
    (h : l.contains sep = false) : jsSplit sep l = [l] := by
  induction l with
  | nil => rfl
  | cons c cs ih =>
    rw [List.contains_cons, Bool.or_eq_false_iff] at h
    have hc : ¬ c = sep := by
      intro he
      subst he
      simp at h
    simp only [jsSplit, ih h.2, hc, if_false]

lemma tailAfter_of_not_contains (sep : Char) (l : List Char)
    (h : l.contains sep = false) : tailAfter sep l = l := by
  cases l with
  | nil => rfl
  | cons c cs =>
    rw [List.contains_cons, Bool.or_eq_false_iff] at h
    have hc : ¬ c = sep := by
      intro he
      subst he
      simp at h
    unfold tailAfter
    rw [h.2]
    simp [hc]

lemma jsSplit_of_contains (sep : Char) (l : List Char)
    (h : l.contains sep = true) :
    ∃ r rs, jsSplit sep l = r :: rs ∧ rs ≠ [] := by
  induction l with
  | nil => simp at h
  | cons c cs ih =>
    rw [List.contains_cons, Bool.or_eq_true] at h
    by_cases hc : c = sep
    · obtain ⟨r, rs, hrs⟩ : ∃ r rs, jsSplit sep cs = r :: rs := by
        cases hs : jsSplit sep cs with
        | nil => exact absurd hs (jsSplit_ne_nil sep cs)
        | cons r rs => exact ⟨r, rs, rfl⟩
      refine ⟨[], r :: rs, ?_, by simp⟩
      simp only [jsSplit, hrs, hc, if_true]
    · have hcs : cs.contains sep = true := by
        rcases h with h | h
        · exact absurd (beq_iff_eq.mp h).symm hc
        · exact h
      obtain ⟨r, rs, hrs, hne⟩ := ih hcs
      refine ⟨c :: r, rs, ?_, hne⟩
      simp only [jsSplit, hrs, hc, if_false]

lemma getLastD_jsSplit (sep : Char) (l : List Char) :
    (jsSplit sep l).getLastD [] = tailAfter sep l := by
  induction l with
  | nil => rfl
  | cons c cs ih =>
    by_cases h : cs.contains sep = true
    · obtain ⟨r, rs, hrs, hne⟩ := jsSplit_of_contains sep cs h
      obtain ⟨a, rs', hrs'⟩ : ∃ a rs', rs = a :: rs' := by
        cases rs with
        | nil => exact absurd rfl hne
        | cons a rs' => exact ⟨a, rs', rfl⟩
      subst hrs'
      by_cases hc : c = sep
      · simp only [jsSplit, hrs, hc, if_true, List.getLastD_cons]
        rw [← List.getLastD_cons r a, ← List.getLastD_cons [] r, ← hrs, ih]
        simp only [tailAfter, h, if_true]
      · simp only [jsSplit, hrs, hc, if_false, List.getLastD_cons]
        rw [← List.getLastD_cons r a, ← List.getLastD_cons [] r, ← hrs, ih]
        simp only [tailAfter, h, if_true]
    · rw [Bool.not_eq_true] at h
      rw [jsSplit_of_not_contains sep cs h] at *
      by_cases hc : c = sep
      · simp only [jsSplit, jsSplit_of_not_contains sep cs h, hc, if_true,
          List.getLastD_cons, tailAfter, h]
        simp [tailAfter_of_not_contains sep cs h]
      · simp only [jsSplit, jsSplit_of_not_contains sep cs h, hc, if_false,
          List.getLastD_cons, tailAfter, h]
        simp [hc]

lemma string_mk_data (s : String) : String.mk s.data = s := by
  cases s
  rfl

/-- C4 corrected (counterexample): for a name with no `.`, the computed
extension is the whole lowercase name, not the empty string — refuting "it
is the empty string when the name contains no '.'". -/
theorem ext_no_dot_counterexample :
    ((jsToLower "makefile").data.contains '.') = false ∧
    extOf "makefile" = "makefile" ∧ ("makefile" : String) ≠ "" := by
  refine ⟨by decide, by decide, by decide⟩

/-- C4 amended: the extension used for classification is the last segment
of the lowercase name split on `.` — the substring after the last `.`
(`tailAfter`), which is the whole lowercase name when the name contains no
`.`. -/
theorem ext_is_tail_after_last_dot (name : String) :
    extOf name = String.mk (tailAfter '.' (jsToLower name).data) ∧
    ((jsToLower name).data.contains '.' = false → extOf name = jsToLower name) := by
  constructor
  · unfold extOf
    rw [getLastD_jsSplit]
  · intro h
    unfold extOf
    rw [getLastD_jsSplit, tailAfter_of_not_contains _ _ h, string_mk_data]

/-- Witness for `ext_is_tail_after_last_dot` at the dot-free name
"makefile". -/
theorem ext_is_tail_after_last_dot_witness :
    extOf "makefile" = jsToLower "makefile" :=
  (ext_is_tail_after_last_dot "makefile").2 (by decide)

end DriveOrganizer

namespace DriveOrganizer

lemma extLoop_eq_extFirst (ext : String) (rules : List CategoryRule)
    (d : String) :
    extLoop ext rules d = ((extFirst rules ext).map (fun r => r.id)).getD d := by
  induction rules with
  | nil => rfl
  | cons r rs ih =>
    cases hx : r.extensions with
    | none =>
      have hm : ¬ extMatches ext r = true := by simp [extMatches, hx]
      unfold extFirst
      rw [List.find?_cons_of_neg _ hm]
      simp only [extLoop, hx]
      exact ih
    | some exts =>
      by_cases hc : exts.contains ext = true
      · have hm : extMatches ext r = true := by
          simp only [extMatches, hx]
          exact hc
        unfold extFirst
        rw [List.find?_cons_of_pos _ hm]
        simp only [extLoop, hx]
        rw [if_pos hc]
        rfl
      · have hm : ¬ extMatches ext r = true := by
          simp only [extMatches, hx]
          exact hc
        unfold extFirst
        rw [List.find?_cons_of_neg _ hm]
        simp only [extLoop, hx]
        rw [if_neg hc]
        exact ih

lemma extLoop_mem (ext : String) (rules : List CategoryRule) (d : String) :
    extLoop ext rules d = d ∨
      extLoop ext rules d ∈ rules.map (fun r => r.id) := by
  induction rules with
  | nil => exact Or.inl rfl
  | cons r rs ih =>
    cases hx : r.extensions with
    | none =>
      have heq : extLoop ext (r :: rs) d = extLoop ext rs d := by
        simp only [extLoop, hx]
      rw [heq, List.map_cons]
      rcases ih with h | h
      · exact Or.inl h
      · exact Or.inr (List.mem_cons_of_mem _ h)
    | some exts =>
      by_cases hc : exts.contains ext = true
      · have heq : extLoop ext (r :: rs) d = r.id := by
          simp only [extLoop, hx]
          rw [if_pos hc]
        rw [heq, List.map_cons]
        exact Or.inr (List.mem_cons_self _ _)
      · have heq : extLoop ext (r :: rs) d = extLoop ext rs d := by
          simp only [extLoop, hx]
          rw [if_neg hc]
        rw [heq, List.map_cons]
        rcases ih with h | h
        · exact Or.inl h
        · exact Or.inr (List.mem_cons_of_mem _ h)

lemma kwLoop_mem (fn : String) (rules : List CategoryRule) :
    kwLoop fn rules "99_기타" = "99_기타" ∨
      kwLoop fn rules "99_기타" ∈ rules.map (fun r => r.id) := by
  induction rules with
  | nil => exact Or.inl rfl
  | cons r rs ih =>
    have step : kwLoop fn (r :: rs) "99_기타" = kwLoop fn rs "99_기타" ∨
        (kwLoop fn (r :: rs) "99_기타" = r.id ∧ r.id ≠ "99_기타") := by
      cases hk : r.keywords with
      | none =>
        refine Or.inl ?_
        simp [kwLoop, hk]
      | some kws =>
        by_cases hm : kws.any (fun kw => strContains fn (jsToLower kw)) = true
        · by_cases hid : r.id = "99_기타"
          · refine Or.inl ?_
            simp [kwLoop, hk, hm, hid]
          · refine Or.inr ⟨?_, hid⟩
            simp [kwLoop, hk, hm, hid]
        · refine Or.inl ?_
          simp [kwLoop, hk, hm]
    rw [List.map_cons]
    rcases step with h | ⟨h, _⟩
    · rw [h]
      rcases ih with h2 | h2
      · exact Or.inl h2
      · exact Or.inr (List.mem_cons_of_mem _ h2)
    · rw [h]
      exact Or.inr (List.mem_cons_self _ _)

lemma classifyFile_mem (rules : List CategoryRule) (name : String)
    (hca : catchAll ∈ rules) :
    classifyFile rules name ∈ rules.map (fun r => r.id) := by
  have hsent : "99_기타" ∈ rules.map (fun r => r.id) := by
    refine List.mem_map.mpr ⟨catchAll, hca, rfl⟩
  simp only [classifyFile]
  by_cases h : extLoop (extOf name) rules "99_기타" = "99_기타"
  · simp only [h, if_true]
    rcases kwLoop_mem (jsToLower name) rules with hk | hk
    · rw [hk]; exact hsent
    · exact hk
  · simp only [h, if_false]
    rcases extLoop_mem (extOf name) rules "99_기타" with he | he
    · exact absurd he h
    · exact he

/-- C1: with the catch-all rule terminating the ruleset, classification is
total and single-valued — every item in the batch yields exactly one
(name, category) pair, and the category is the id of a rule in the
ruleset. -/
theorem classify_assigns_exactly_one (rules : List CategoryRule)
    (names : List String) (hlast : rules.getLast? = some catchAll) :
    (classifyAll rules names).map Prod.fst = names ∧
    ∀ p ∈ classifyAll rules names, p.2 ∈ rules.map (fun r => r.id) := by
  have hca : catchAll ∈ rules := List.mem_of_getLast?_eq_some hlast
  constructor
  · simp [classifyAll, Function.comp_def]
  · intro p hp
    simp only [classifyAll, List.mem_map] at hp
    obtain ⟨n, hn, rfl⟩ := hp
    exact classifyFile_mem rules n hca

/-- Witness for `classify_assigns_exactly_one` on a one-rule ruleset and a
one-item batch. -/
theorem classify_assigns_exactly_one_witness :
    (classifyAll [catchAll] ["a.txt"]).map Prod.fst = ["a.txt"] ∧
    ("a.txt", "99_기타").2 ∈ [catchAll].map (fun r => r.id) :=
  ⟨(classify_assigns_exactly_one [catchAll] ["a.txt"] rfl).1,
    (classify_assigns_exactly_one [catchAll] ["a.txt"] rfl).2
      ("a.txt", "99_기타") (by decide)⟩

/-- C2: extension matching takes global precedence over keyword matching —
whenever some rule's extension set contains the item's extension, the item
is assigned to the first such rule in declaration order, whatever keywords
any rule (earlier or later) may carry. -/
theorem extension_match_first (rules : List CategoryRule) (name : String)
    (r : CategoryRule) (hlast : rules.getLast? = some catchAll)
    (hnodup : (rules.map (fun c => c.id)).Nodup)
    (hfind : extFirst rules (extOf name) = some r) :
    classifyFile rules name = r.id := by
  have hmem : r ∈ rules := List.mem_of_find?_eq_some hfind
  have hp : extMatches (extOf name) r = true := List.find?_some hfind
  have hca : catchAll ∈ rules := List.mem_of_getLast?_eq_some hlast
  have hne : r.id ≠ "99_기타" := by
    intro he
    have hr : r = catchAll :=
      List.inj_on_of_nodup_map hnodup hmem hca (by rw [he]; rfl)
    rw [hr] at hp
    simp [extMatches, catchAll] at hp
  have hloop : extLoop (extOf name) rules "99_기타" = r.id := by
    rw [extLoop_eq_extFirst, hfind]
    rfl
  simp only [classifyFile, hloop, hne, if_false]

/-- Witness for `extension_match_first`: "tax.png" carries the keyword
"tax" of the earlier rule 04, yet its extension "png" sends it to rule
08. -/
theorem extension_match_first_witness :
    classifyFile categories "tax.png" = cat08.id :=
  extension_match_first categories "tax.png" cat08 (by decide) (by decide)
    (by decide)

end DriveOrganizer

namespace DriveOrganizer

lemma moveLoop_dest (rules : List CategoryRule) (fs : List Item)
    (st : MoveState) :
    (moveLoop rules fs st).dest =
      st.dest ++ fs.map (fun f => (classifyFile rules f.name, f)) := by
  induction fs generalizing st with
  | nil => simp [moveLoop]
  | cons f fs ih => simp [moveLoop, ih]

lemma moveLoop_root (rules : List CategoryRule) (fs : List Item)
    (st : MoveState) :
    (moveLoop rules fs st).root =
      st.root.filter (fun g => fs.all (fun f => g.id != f.id)) := by
  induction fs generalizing st with
  | nil => simp [moveLoop]
  | cons f fs ih =>
    simp only [moveLoop, ih, List.filter_filter]
    refine List.filter_congr (fun a ha => ?_)
    simp only [List.all_cons]
    rw [Bool.and_comm]

lemma moveLoop_dest_snd (rules : List CategoryRule) (files : List Item) :
    (moveLoop rules files ⟨files, [], 0⟩).dest.map Prod.snd = files := by
  rw [moveLoop_dest]
  simp [Function.comp_def]

lemma folderLoop_dest (rules : List CategoryRule) (fs : List Item)
    (st : MoveState) :
    (folderLoop rules fs st).dest = st.dest ++
      (fs.filter (fun f => !skipFolder f.name)).map
        (fun f => (classifyFolder rules f.name, f)) := by
  induction fs generalizing st with
  | nil => simp [folderLoop]
  | cons f fs ih =>
    by_cases h : skipFolder f.name = true
    · have hstep : folderLoop rules (f :: fs) st = folderLoop rules fs st := by
        simp [folderLoop, h]
      rw [hstep, ih, List.filter_cons]
      simp [h]
    · have hb : skipFolder f.name = false := Bool.eq_false_iff.mpr h
      have hstep : folderLoop rules (f :: fs) st = folderLoop rules fs
          ⟨st.root.filter (fun g => g.id != f.id),
            st.dest ++ [(classifyFolder rules f.name, f)],
            st.movedCount + 1⟩ := by
        simp [folderLoop, hb]
      rw [hstep, ih, List.filter_cons]
      simp [hb]

lemma folderLoop_root (rules : List CategoryRule) (fs : List Item)
    (st : MoveState) :
    (folderLoop rules fs st).root = st.root.filter
      (fun g => (fs.filter (fun f => !skipFolder f.name)).all
        (fun f => g.id != f.id)) := by
  induction fs generalizing st with
  | nil => simp [folderLoop]
  | cons f fs ih =>
    by_cases h : skipFolder f.name = true
    · have hstep : folderLoop rules (f :: fs) st = folderLoop rules fs st := by
        simp [folderLoop, h]
      rw [hstep, ih, List.filter_cons]
      simp [h]
    · have hb : skipFolder f.name = false := Bool.eq_false_iff.mpr h
      have hstep : folderLoop rules (f :: fs) st = folderLoop rules fs
          ⟨st.root.filter (fun g => g.id != f.id),
            st.dest ++ [(classifyFolder rules f.name, f)],
            st.movedCount + 1⟩ := by
        simp [folderLoop, hb]
      rw [hstep, ih, List.filter_cons]
      simp only [hb, Bool.not_false, if_true, List.filter_filter]
      refine List.filter_congr (fun a ha => ?_)
      simp only [List.all_cons]
      rw [Bool.and_comm]

lemma folderLoop_dest_snd (rules : List CategoryRule) (folders : List Item) :
    (folderLoop rules folders ⟨folders, [], 0⟩).dest.map Prod.snd =
      folders.filter (fun g => !skipFolder g.name) := by
  rw [folderLoop_dest]
  simp [Function.comp_def]

/-- C3: classification never deletes an item.  The file pass empties the
root and the destination folders hold exactly the original files; the
folder pass preserves the multiset of folder identities between the root
(the skipped folders) and the destinations (the moved ones). -/
theorem classification_moves_not_deletes (rules : List CategoryRule)
    (files folders : List Item)
    (hnodup : (folders.map (fun f => f.id)).Nodup) :
    (moveLoop rules files ⟨files, [], 0⟩).root = [] ∧
    (moveLoop rules files ⟨files, [], 0⟩).dest.map Prod.snd = files ∧
    ((folderLoop rules folders ⟨folders, [], 0⟩).root : Multiset Item) +
      ((folderLoop rules folders ⟨folders, [], 0⟩).dest.map Prod.snd :
        Multiset Item) = (folders : Multiset Item) := by
  refine ⟨?_, moveLoop_dest_snd rules files, ?_⟩
  · rw [moveLoop_root]
    rw [List.filter_eq_nil_iff]
    intro a ha hall
    rw [List.all_eq_true] at hall
    have := hall a ha
    simp at this
  · rw [folderLoop_root, folderLoop_dest_snd]
    have hroot : folders.filter
        (fun g => (folders.filter (fun f => !skipFolder f.name)).all
          (fun f => g.id != f.id)) =
        folders.filter (fun g => skipFolder g.name) := by
      refine List.filter_congr (fun g hg => ?_)
      by_cases hs : skipFolder g.name = true
      · rw [hs, List.all_eq_true]
        intro f hf
        have hfmem := (List.mem_filter.mp hf).1
        have hfns : skipFolder f.name = false := by
          have h2 := (List.mem_filter.mp hf).2
          simpa using h2
        simp only [bne_iff_ne, ne_eq]
        intro heq
        have hgf : g = f := List.inj_on_of_nodup_map hnodup hg hfmem heq
        rw [hgf] at hs
        rw [hs] at hfns
        cases hfns
      · have hsf : skipFolder g.name = false := Bool.eq_false_iff.mpr hs
        rw [hsf, Bool.eq_false_iff]
        intro hall
        rw [List.all_eq_true] at hall
        have hgmem : g ∈ folders.filter (fun f => !skipFolder f.name) :=
          List.mem_filter.mpr ⟨hg, by simp [hsf]⟩
        have := hall g hgmem
        simp at this
    rw [hroot, Multiset.coe_add]
    exact Multiset.coe_eq_coe.mpr
      (List.filter_append_perm (fun g => skipFolder g.name) folders)

/-- Witness for `classification_moves_not_deletes` on a one-file,
one-folder root. -/
theorem classification_moves_not_deletes_witness :
    (moveLoop [catchAll] [⟨0, "a.png"⟩]
      (⟨[⟨0, "a.png"⟩], [], 0⟩ : MoveState)).root = [] ∧
    (moveLoop [catchAll] [⟨0, "a.png"⟩]
      (⟨[⟨0, "a.png"⟩], [], 0⟩ : MoveState)).dest.map Prod.snd =
      [⟨0, "a.png"⟩] ∧
    ((folderLoop [catchAll] [⟨1, "Misc"⟩]
        (⟨[⟨1, "Misc"⟩], [], 0⟩ : MoveState)).root : Multiset Item) +
      ((folderLoop [catchAll] [⟨1, "Misc"⟩]
        (⟨[⟨1, "Misc"⟩], [], 0⟩ : MoveState)).dest.map Prod.snd :
          Multiset Item) =
      (([⟨1, "Misc"⟩] : List Item) : Multiset Item) :=
  classification_moves_not_deletes [catchAll] [⟨0, "a.png"⟩] [⟨1, "Misc"⟩]
    (by decide)

/-- C10: a root folder named exactly like the tool's main folder, or whose
name starts with two digits and an underscore, is skipped by the folder
pass: it stays in the root listing and is never moved to any destination. -/
theorem protected_folders_stay (rules : List CategoryRule)
    (folders : List Item) (f : Item) (hmem : f ∈ folders)
    (hname : f.name = mainFolderName ∨ startsTwoDigitsUnderscore f.name = true)
    (hnodup : (folders.map (fun g => g.id)).Nodup) :
    f ∈ (folderLoop rules folders ⟨folders, [], 0⟩).root ∧
    f ∉ (folderLoop rules folders ⟨folders, [], 0⟩).dest.map Prod.snd := by
  have hskip : skipFolder f.name = true := by
    rcases hname with h | h
    · simp [skipFolder, h]
    · simp [skipFolder, h]
  constructor
  · rw [folderLoop_root]
    refine List.mem_filter.mpr ⟨hmem, ?_⟩
    rw [List.all_eq_true]
    intro g hg
    have hgmem := (List.mem_filter.mp hg).1
    have hgskip : skipFolder g.name = false := by
      have h2 := (List.mem_filter.mp hg).2
      simpa using h2
    simp only [bne_iff_ne, ne_eq]
    intro heq
    have hfg : f = g := List.inj_on_of_nodup_map hnodup hmem hgmem heq
    rw [hfg] at hskip
    rw [hskip] at hgskip
    cases hgskip
  · rw [folderLoop_dest_snd]
    intro hmem2
    have h2 := (List.mem_filter.mp hmem2).2
    rw [hskip] at h2
    simp at h2

/-- Witness for `protected_folders_stay`: the main folder survives a run
in the root listing. -/
theorem protected_folders_stay_witness :
    (⟨0, "YJ Partners - 프로젝트 관리"⟩ : Item) ∈
      (folderLoop [catchAll] [⟨0, "YJ Partners - 프로젝트 관리"⟩, ⟨1, "stuff"⟩]
        ⟨[⟨0, "YJ Partners - 프로젝트 관리"⟩, ⟨1, "stuff"⟩], [], 0⟩).root :=
  (protected_folders_stay [catchAll]
    [⟨0, "YJ Partners - 프로젝트 관리"⟩, ⟨1, "stuff"⟩]
    ⟨0, "YJ Partners - 프로젝트 관리"⟩ (by decide) (Or.inl rfl) (by decide)).1

/-- C7 corrected (counterexample): with a move effect that throws on the
first item, the whole run aborts with the error — the second item is never
processed and no summary state is produced, contradicting the
continue-on-error policy with a moved/failed summary. -/
theorem move_failure_aborts_run :
    moveLoopE mvDeny [catchAll] [⟨0, "a.txt"⟩, ⟨1, "b.txt"⟩]
      ⟨[⟨0, "a.txt"⟩, ⟨1, "b.txt"⟩], [], 0⟩ = Except.error "move failed" := rfl

/-- C7 amended: a failing move aborts the run immediately — the loop
returns the error without touching the remaining items, and the only
summary figure the state carries is the count of moved items (there is no
failed count). -/
theorem move_failure_stops_loop (mv : Item → Except String Unit)
    (rules : List CategoryRule) (f : Item) (fs : List Item) (st : MoveState)
    (e : String) (h : mv f = Except.error e) :
    moveLoopE mv rules (f :: fs) st = Except.error e := by
  simp only [moveLoopE, h]

/-- Witness for `move_failure_stops_loop` at a concrete failing move. -/
theorem move_failure_stops_loop_witness :
    moveLoopE mvDeny [catchAll] [⟨0, "x.txt"⟩, ⟨1, "y.txt"⟩] ⟨[], [], 0⟩ =
      Except.error "move failed" :=
  move_failure_stops_loop mvDeny [catchAll] ⟨0, "x.txt"⟩ [⟨1, "y.txt"⟩]
    ⟨[], [], 0⟩ "move failed" rfl

lemma getOrCreateFolder_preserves (existing : List String) (name m : String)
    (hm : m ∈ existing) : m ∈ (getOrCreateFolder existing name).1 := by
  unfold getOrCreateFolder
  by_cases h : name ∈ existing
  · rw [if_pos h]
    exact hm
  · rw [if_neg h]
    exact List.mem_append_left _ hm

lemma getOrCreateFolder_creates (existing : List String) (name : String) :
    name ∈ (getOrCreateFolder existing name).1 := by
  unfold getOrCreateFolder
  by_cases h : name ∈ existing
  · rw [if_pos h]
    exact h
  · rw [if_neg h]
    exact List.mem_append_right _ (List.mem_singleton.mpr rfl)

lemma mem_createCategoryFolders (rules : List CategoryRule)
    (existing : List String) (m : String) (hm : m ∈ existing) :
    m ∈ createCategoryFolders rules existing := by
  induction rules generalizing existing with
  | nil => exact hm
  | cons r rs ih =>
    simp only [createCategoryFolders]
    exact ih _ (getOrCreateFolder_preserves _ _ _ hm)

lemma rule_id_created (r : CategoryRule) :
    ∀ rules : List CategoryRule, r ∈ rules →
      ∀ existing, r.id ∈ createCategoryFolders rules existing := by
  intro rules
  induction rules with
  | nil =>
    intro hr
    cases hr
  | cons a rs ih =>
    intro hr existing
    simp only [createCategoryFolders]
    rcases List.mem_cons.mp hr with h | h
    · subst h
      exact mem_createCategoryFolders rs _ _ (getOrCreateFolder_creates _ _)
    · exact ih h _

/-- C9 corrected (counterexample): a run over an empty root — in which no
item is assigned to any category — still creates the container of every
category, including `08_이미지_미디어`, before any item is examined:
container creation is eager, not lazy. -/
theorem folders_created_without_items :
    (organizeDrive categories [] [] []).2.1.dest = [] ∧
    (organizeDrive categories [] [] []).2.2.dest = [] ∧
    cat08.id ∈ (organizeDrive categories [] [] []).1 := by
  refine ⟨rfl, rfl, by decide⟩

/-- C9 amended: destination containers for all categories are created (or
fetched when already present) eagerly during the setup loop, before any
item is processed; nothing already in the store is ever removed.  (The
cache and absence of deletion of the original claim do hold; only the
"lazily, on first use" part is false.) -/
theorem category_folders_created_eagerly (rules : List CategoryRule)
    (existing : List String) (r : CategoryRule) (hr : r ∈ rules) :
    r.id ∈ createCategoryFolders rules existing ∧
    ∀ n ∈ existing, n ∈ createCategoryFolders rules existing :=
  ⟨rule_id_created r rules hr existing,
    fun n hn => mem_createCategoryFolders rules existing n hn⟩

/-- Witness for `category_folders_created_eagerly`. -/
theorem category_folders_created_eagerly_witness :
    cat08.id ∈ createCategoryFolders categories [] :=
  (category_folders_created_eagerly categories [] cat08 (by decide)).1

end DriveOrganizer
